import Mathlib

set_option maxRecDepth 40000

/-!
# Fund tracker — operation ledger, NAV resolver, reconciliation engine

Shallow embedding of the core subsystem of `src/app/components/AppShell.tsx`
(together with the shared types of `src/lib/analysis.ts`): the settlement
timing model (`computeApplyAt`), strict NAV lookup (`findNavInHistoryStrict`),
the cached NAV resolver (`resolveNavForOp`), the holding reconciliation
engine (`computeHoldingFromOperations`), the operation ledger
(`recordOperation`, `buildTradeOperation`, `updateStatus`,
`handleUndoOperation`) and the holdings-list mutations (`saveHolding`,
`applyHoldingUpdate`, the batch-import commit).

Modelling conventions, stated once here:
* JavaScript numbers are modelled as `ℚ`; `Number(x.toFixed(k))` is `roundTo k`
  (ECMA `toFixed` picks the larger candidate on ties, i.e. round half up,
  which is Mathlib's `round`).
* Nullable / optional fields are `Option`; JavaScript truthiness of a
  `number | null` value (`if (nav)`) is `navTruthy` (`some v` with `v ≠ 0`);
  truthiness of a string is nonemptiness.
* Dates are ISO `String`s compared lexicographically (`localeCompare` on
  ISO dates agrees with the chronological and the Lean `String` order).
* Clock reads (`Date.now()`, `todayCn()`) are passed in as explicit `now` /
  `today` parameters; epoch timestamps are `ℤ` milliseconds in fund-local
  time (the timezone offset is a constant additive shift that no claim
  observes).
* The JS `Date` day arithmetic (`setDate`) is embedded by the ECMA-262
  `MakeDay`/`MakeDate` equations (`dayFromYear`, `dayFromMonth`, `makeDay`).
* `fetch` and the HTML-table adapter (`extractHistoryFromTable`, a DOMParser
  client, outside the embeddable core per the spec's §6 interface) are
  modelled as an opaque page source `String → ℕ → Option FundHistoryTableData`
  whose `content` is already the extracted row list; a `none` page result is
  a failed page request (`!res.ok`).
* The single-threaded event loop runs one resolver call at a time, so the
  pending-promise map of `resolveNavForOp` never observes a concurrent
  caller; the embedding threads the two caches (result cache and page cache)
  explicitly through each call instead.
-/

/-! ## Shared types (src/lib/analysis.ts) -/

/-- `TradeTiming` from `src/lib/analysis.ts`: order placed before or after
the daily cutoff. -/
inductive TradeTiming where
  | before
  | after
deriving DecidableEq, Repr

/-- Holding entry method (`'amount' | 'shares'`). -/
inductive HoldingMethod where
  | amount
  | shares
deriving DecidableEq, Repr

/-- Operation type (`'add' | 'reduce' | 'edit'`). -/
inductive OpType where
  | add
  | reduce
  | edit
deriving DecidableEq, Repr

/-- Operation status (`'pending' | 'confirmed'`). -/
inductive OpStatus where
  | pending
  | confirmed
deriving DecidableEq, Repr

/-- `Holding` from `src/lib/analysis.ts`. -/
structure Holding where
  code : String
  method : HoldingMethod
  amount : Option ℚ
  profit : Option ℚ
  shares : Option ℚ
  costPrice : Option ℚ
  firstBuy : String
deriving DecidableEq, Repr

/-- `FundOperation` from `src/lib/analysis.ts`; optional fields are `Option`
(the TS `?:` and `| null` possibilities are collapsed into one `none`). -/
structure FundOperation where
  id : String
  code : String
  type : OpType
  status : OpStatus
  createdAt : ℤ
  applyAt : ℤ
  method : Option HoldingMethod := none
  amount : Option ℚ := none
  shares : Option ℚ := none
  nav : Option ℚ := none
  feeRate : Option ℚ := none
  fee : Option ℚ := none
  date : Option String := none
  timing : Option TradeTiming := none
  isQdii : Option Bool := none
  prev : Option Holding := none
  next : Option Holding := none
deriving DecidableEq, Repr

/-- `FundHistoryPoint` from `src/lib/analysis.ts` (the two optional
percentage fields play no role in the core and are omitted). -/
structure FundHistoryPoint where
  date : String
  nav : ℚ
deriving DecidableEq, Repr

/-- `FundHistoryTableData` from `src/lib/analysis.ts`; `content` is the HTML
table, modelled as its extracted row list (see the header note). -/
structure FundHistoryTableData where
  content : List FundHistoryPoint
  pages : Option ℤ := none
deriving DecidableEq, Repr

/-! ## Numeric helpers -/

/-- `Number(x.toFixed(k))`: round to `k` decimal places, half up. -/
def roundTo (k : ℕ) (q : ℚ) : ℚ := (round (q * 10 ^ k) : ℤ) / 10 ^ k

/-- Two-decimal rounding, the ubiquitous `Number(x.toFixed(2))`. -/
def round2 (q : ℚ) : ℚ := roundTo 2 q

/-- JavaScript truthiness of a `number | null`: non-null and nonzero. -/
def navTruthy : Option ℚ → Bool
  | none => false
  | some v => v ≠ 0

/-! ## Settlement timing model (AppShell.tsx lines 49–63) -/

/-- ECMA-262 `DayFromYear`: days from the epoch to Jan 1 of year `y`. -/
def dayFromYear (y : ℤ) : ℤ :=
  365 * (y - 1970) + (y - 1969).fdiv 4 - (y - 1901).fdiv 100 + (y - 1601).fdiv 400

/-- Gregorian leap-year test. -/
def inLeapYear (y : ℤ) : Bool :=
  y % 4 = 0 && (y % 100 ≠ 0 || y % 400 = 0)

/-- Days from Jan 1 to the first day of month `m` (1-based) of a year with
leap flag `leap` — ECMA-262 `DayWithinYear` month offsets. -/
def dayFromMonth (m : ℕ) (leap : Bool) : ℤ :=
  let l : ℤ := if leap then 1 else 0
  match m with
  | 1 => 0
  | 2 => 31
  | 3 => 59 + l
  | 4 => 90 + l
  | 5 => 120 + l
  | 6 => 151 + l
  | 7 => 181 + l
  | 8 => 212 + l
  | 9 => 243 + l
  | 10 => 273 + l
  | 11 => 304 + l
  | 12 => 334 + l
  | _ => 0

/-- ECMA-262 `MakeDay` for a 1-based month and a day number `d` that may lie
outside the month (as produced by `setDate(getDate() + k)`): the day count is
purely affine in `d`, which is exactly why `setDate` shifts the time value by
whole days. -/
def makeDay (y : ℤ) (m : ℕ) (d : ℤ) : ℤ :=
  dayFromYear y + dayFromMonth m (inLeapYear y) + (d - 1)

/-- Milliseconds per day. -/
def msPerDay : ℤ := 86400000

/-- ECMA-262 `MakeDate` at hour `h` (fund-local): epoch milliseconds. -/
def makeDate (day : ℤ) (h : ℤ) : ℤ := day * msPerDay + h * 3600000

/-- Epoch milliseconds of `y-m-d` at hour `h`, the parse of
`"YYYY-MM-DDThh:00:00"`. -/
def epochAtHour (y : ℤ) (m : ℕ) (d : ℤ) (h : ℤ) : ℤ := makeDate (makeDay y m d) h

/-- Day count of month `m` in year `y` (for ISO date validation; a date-only
ISO string with an out-of-range component parses to an invalid `Date`). -/
def daysInMonthJS (y : ℤ) (m : ℕ) : ℕ :=
  match m with
  | 2 => if inLeapYear y then 29 else 28
  | 4 | 6 | 9 | 11 => 30
  | _ => 31

/-- Split a character list on a separator, `String.prototype.split` style
(written charwise so that it evaluates inside the kernel). -/
def splitOnChar (sep : Char) : List Char → List (List Char)
  | [] => [[]]
  | c :: rest =>
    let r := splitOnChar sep rest
    if c = sep then [] :: r
    else
      match r with
      | [] => [[c]]
      | g :: gs => (c :: g) :: gs

/-- Parse a nonempty all-digit character list as a natural number. -/
def digitsToNat? (cs : List Char) : Option ℕ :=
  if cs = [] then none
  else
    cs.foldl
      (fun acc c =>
        match acc with
        | none => none
        | some n => if c.isDigit then some (n * 10 + (c.toNat - 48)) else none)
      (some 0)

/-- Parse a `"YYYY-MM-DD"` string; `none` models the `Number.isNaN(getTime())`
branch of `computeApplyAt` (an ISO date-only string with a malformed or
out-of-range component yields an invalid `Date`). -/
def parseIsoDate (s : String) : Option (ℤ × ℕ × ℕ) :=
  match splitOnChar '-' s.data with
  | [ys, ms, ds] =>
    if ys.length = 4 ∧ ms.length = 2 ∧ ds.length = 2 then
      match digitsToNat? ys, digitsToNat? ms, digitsToNat? ds with
      | some y, some m, some d =>
        if 1 ≤ m ∧ m ≤ 12 ∧ 1 ≤ d ∧ d ≤ daysInMonthJS y m then
          some ((y : ℤ), m, d)
        else none
      | _, _, _ => none
    else none
  | _ => none

/-- `computeApplyAt` (AppShell.tsx 54–63). `now` is `Date.now()`, `today` is
`todayCn()`, both ambient clock reads passed explicitly. The JS
`base.setDate(base.getDate() + delay + extra)` is `MakeDay` at day
`d + delay + extra` per ECMA-262. -/
def computeApplyAt (now : ℤ) (today : String) (date : String) (timing : TradeTiming)
    (isQdii : Bool) : ℤ :=
  let baseDate := if date = "" then today else date
  if baseDate = "" then now
  else
    match parseIsoDate baseDate with
    | none => now
    | some (y, m, d) =>
      let delay : ℤ := if timing = TradeTiming.before then 1 else 2
      let extra : ℤ := if isQdii then 1 else 0
      makeDate (makeDay y m ((d : ℤ) + delay + extra)) 15

/-- Confirmation delay in days for a timing rule (1 for `before`, 2 for
`after`), as in the claim's wording. -/
def tradeDelay (t : TradeTiming) : ℤ := if t = TradeTiming.before then 1 else 2

/-- Extra settlement day for QDII funds. -/
def qdiiExtra (q : Bool) : ℤ := if q then 1 else 0

/-! ## Dates as strings -/

/-- Lexicographic (codepoint) strict order on character lists; this is what
`localeCompare` and JS `<` compute on ASCII ISO dates. Written as a `Bool`
so that it evaluates inside the kernel. -/
def lexLtb : List Char → List Char → Bool
  | [], [] => false
  | [], _ :: _ => true
  | _ :: _, [] => false
  | a :: as, b :: bs =>
    if a.toNat < b.toNat then true
    else if b.toNat < a.toNat then false
    else lexLtb as bs

/-- `a.localeCompare(b) < 0` / `a < b` on ISO date strings. -/
def dateLtb (a b : String) : Bool := lexLtb a.data b.data

/-- `a.localeCompare(b) <= 0` on ISO date strings. -/
def dateLeb (a b : String) : Bool := ! dateLtb b a

/-- `normalizeHistoryDate` (AppShell.tsx 65–68): `value.trim().slice(0, 10)`,
written charwise. -/
def normalizeHistoryDate (v : String) : String :=
  if v = "" then ""
  else
    String.mk ((((v.data.dropWhile Char.isWhitespace).reverse.dropWhile
      Char.isWhitespace).reverse).take 10)

/-! ## Strict NAV lookup (AppShell.tsx 70–93) -/

/-- The sort comparator of `findNavInHistoryStrict`:
`(a, b) => a.date.localeCompare(b.date)` ascending. -/
def histLeb (a b : FundHistoryPoint) : Bool := dateLeb a.date b.date

/-- `findNavInHistoryStrict` (AppShell.tsx 70–93). For `before` timing the
resolver demands an exact date match; for `after` it takes the entry right
after the exact match when one exists (`findIndex` then `[i+1]`, fused here
into `dropWhile` of the non-matches followed by the tail) and otherwise the
first entry with a strictly later date. -/
def findNavInHistoryStrict (date : String) (timing : TradeTiming)
    (history : List FundHistoryPoint) : Option ℚ :=
  if date = "" ∨ history = [] then none
  else
    let target := normalizeHistoryDate date
    let sorted :=
      List.insertionSort (fun a b => histLeb a b = true)
        ((history.map (fun i => { i with date := normalizeHistoryDate i.date })).filter
          (fun i => i.date ≠ ""))
    if sorted = [] then none
    else
      match timing with
      | TradeTiming.before => (sorted.find? (fun i => i.date = target)).map FundHistoryPoint.nav
      | TradeTiming.after =>
        match sorted.dropWhile (fun i => i.date ≠ target) with
        | _ :: rest => rest.head?.map FundHistoryPoint.nav
        | [] => (sorted.find? (fun i => dateLtb target i.date)).map FundHistoryPoint.nav

/-! ## NAV resolver with caches (AppShell.tsx 374–422) -/

/-- The two mutable caches of the resolver: `navResolveCacheRef` (resolution
result per `code|date|timing` key, where a stored `none` is a cached null)
and `historyTableCache` (fetched NAV table pages keyed `code_page`). Assoc
lists looked up by first match model the JS `Map` / record. -/
structure NavCaches where
  result : List (String × Option ℚ)
  pages : List (String × FundHistoryTableData)
deriving DecidableEq, Repr

/-- The `code|date|timing` result-cache key. -/
def navKey (code date : String) (timing : TradeTiming) : String :=
  code ++ "|" ++ date ++ "|" ++ (match timing with
    | TradeTiming.before => "before"
    | TradeTiming.after => "after")

/-- The `code_page` page-cache key. -/
def pageKey (code : String) (page : ℕ) : String := code ++ "_" ++ toString page

/-- `findNavFromHistoryTable` (AppShell.tsx 114–129): combine every cached
page of the fund (keys starting with `code_`, nonempty content) and run the
strict lookup on the combined rows. -/
def findNavFromHistoryTable (date : String) (timing : TradeTiming)
    (historyCache : List (String × FundHistoryTableData)) (code : String) : Option ℚ :=
  let entries := historyCache.filter
    (fun kv => kv.1.startsWith (code ++ "_") && ! kv.2.content.isEmpty)
  if entries = [] then none
  else
    let combined := entries.foldr (fun kv acc => kv.2.content ++ acc) []
    findNavInHistoryStrict date timing combined

/-- One page request (`fetchPage` inside `resolveNavForOp`, AppShell.tsx
389–399): `fetch` is the opaque page source; a `none` reply is a failed
request (`!res.ok`); a successful reply is stored into the page cache. -/
def fetchPage (fetch : String → ℕ → Option FundHistoryTableData) (code : String)
    (page : ℕ) (caches : NavCaches) : Option FundHistoryTableData × NavCaches :=
  match fetch code page with
  | none => (none, caches)
  | some data => (some data, { caches with pages := (pageKey code page, data) :: caches.pages })

/-- The page-scan loop of `resolveNavForOp` (`for page = 2; page <= totalPages`):
fetch each page in turn, skip failed requests, stop at the first page whose
rows resolve the date. -/
def scanPages (fetch : String → ℕ → Option FundHistoryTableData) (code date : String)
    (timing : TradeTiming) : List ℕ → NavCaches → Option ℚ × NavCaches
  | [], caches => (none, caches)
  | page :: restPages, caches =>
    match fetchPage fetch code page caches with
    | (none, caches₁) => scanPages fetch code date timing restPages caches₁
    | (some data, caches₁) =>
      match findNavInHistoryStrict date timing data.content with
      | some nav => (some nav, caches₁)
      | none => scanPages fetch code date timing restPages caches₁

/-- `Number(first.pages) || 1`: reported page count of the table. -/
def totalPagesOf (data : FundHistoryTableData) : ℕ :=
  match data.pages with
  | some n => if n ≤ 0 then 1 else n.toNat
  | none => 1

/-- The body of the resolution promise in `resolveNavForOp` (AppShell.tsx
385–413): already-cached pages first, then page 1, then pages 2..totalPages. -/
def computeResolve (fetch : String → ℕ → Option FundHistoryTableData)
    (code date : String) (timing : TradeTiming) (caches : NavCaches) :
    Option ℚ × NavCaches :=
  match findNavFromHistoryTable date timing caches.pages code with
  | some v => (some v, caches)
  | none =>
    match fetchPage fetch code 1 caches with
    | (none, caches₁) => (none, caches₁)
    | (some first, caches₁) =>
      match findNavInHistoryStrict date timing first.content with
      | some nav => (some nav, caches₁)
      | none =>
        scanPages fetch code date timing
          (List.range' 2 (totalPagesOf first - 1)) caches₁

/-- `resolveNavForOp` (AppShell.tsx 374–422). The result — found NAV or
`null`, whatever its cause — is stored into the result cache after the
promise settles (line 417). The pending-promise map only de-duplicates
concurrent callers and is invisible to this single-threaded sequential
embedding. -/
def resolveNavForOp (fetch : String → ℕ → Option FundHistoryTableData)
    (code date₀ : String) (timing : TradeTiming) (caches : NavCaches) :
    Option ℚ × NavCaches :=
  let date := normalizeHistoryDate date₀
  if code = "" ∨ date = "" then (none, caches)
  else
    let key := navKey code date timing
    match caches.result.lookup key with
    | some v => (v, caches)
    | none =>
      let (resolved, caches₁) := computeResolve fetch code date timing caches
      (resolved, { caches₁ with result := (key, resolved) :: caches₁.result })

/-! ## Holding reconciliation engine (AppShell.tsx 431–534) -/

/-- The running replay state of `computeHoldingFromOperations`
(`let shares = 0; let cost = 0; let firstBuy = ''`). -/
structure RecState where
  shares : ℚ
  cost : ℚ
  firstBuy : String
deriving DecidableEq, Repr

/-- The thrice-repeated share-delta fallback of the engine:
`nav ? round2(a / nav) : latestNav ? round2(a / latestNav) : null`
(`nav` is the resolver result for the operation). -/
def resolveShareDelta (a : ℚ) (navRes latestNav : Option ℚ) : Option ℚ :=
  if navTruthy navRes then some (round2 (a / navRes.getD 0))
  else if navTruthy latestNav then some (round2 (a / latestNav.getD 0))
  else none

/-- Resolved share delta of an `add`/`reduce` operation: explicit shares
first, otherwise amount divided by the settlement NAV (falling back to
`latestNav`), `none` when neither resolves. -/
def opShareDelta (navRes latestNav : Option ℚ) (op : FundOperation) : Option ℚ :=
  match op.shares with
  | some v => some v
  | none =>
    match op.amount with
    | some a => resolveShareDelta a navRes latestNav
    | none => none

/-- The `(date, timing)` pair an operation hands to `resolveNavForOp`, when
the replay of this operation performs a resolver call at all. The guards are
verbatim those of the three `await resolveNavForOp(...)` sites; hoisting the
call out of the loop body is sound because the guards depend only on the
operation, never on the running state. -/
def opResolveReq (today : String) (op : FundOperation) : Option (String × TradeTiming) :=
  let date := op.date.getD ""
  let timing := op.timing.getD TradeTiming.before
  match op.type with
  | OpType.edit =>
    match op.next with
    | none => none
    | some nxt =>
      if nxt.method = HoldingMethod.shares ∧ nxt.shares ≠ none then none
      else if nxt.method = HoldingMethod.amount ∧ nxt.amount ≠ none then
        some ((if date = "" then today else date), timing)
      else none
  | OpType.add =>
    if op.shares = none ∧ op.amount ≠ none then some (date, timing) else none
  | OpType.reduce =>
    if op.shares = none ∧ op.amount ≠ none then some (date, timing) else none

/-- One iteration of the replay loop of `computeHoldingFromOperations`
(AppShell.tsx 449–516), with the operation's resolver result `navRes`
already in hand. -/
def applyOpStep (latestNav navRes : Option ℚ) (s : RecState) (op : FundOperation) :
    RecState :=
  let date := op.date.getD ""
  match op.type with
  | OpType.edit =>
    match op.next with
    | none => s
    | some nxt =>
      let s₁ :=
        if nxt.method = HoldingMethod.shares ∧ nxt.shares ≠ none then
          let shares := nxt.shares.getD 0
          let cost :=
            if nxt.costPrice ≠ none then shares * nxt.costPrice.getD 0
            else if nxt.amount ≠ none ∧ navTruthy latestNav then nxt.amount.getD 0
            else s.cost
          { s with shares := shares, cost := cost }
        else if nxt.method = HoldingMethod.amount ∧ nxt.amount ≠ none then
          let amount := nxt.amount.getD 0
          let profit := nxt.profit.getD 0
          let shares :=
            match resolveShareDelta amount navRes latestNav with
            | some v => v
            | none => s.shares
          { s with shares := shares, cost := amount - profit }
        else s
      { s₁ with
        firstBuy := if nxt.firstBuy ≠ "" then nxt.firstBuy
          else if s.firstBuy ≠ "" then s.firstBuy else date }
  | OpType.add =>
    match opShareDelta navRes latestNav op with
    | some ds =>
      if ds > 0 then
        let fee := op.fee.getD 0
        let deltaAmount :=
          match op.amount with
          | some a => some a
          | none =>
            if navTruthy latestNav then some (round2 (ds * latestNav.getD 0)) else none
        { shares := s.shares + ds,
          cost := s.cost + (deltaAmount.getD 0 + fee),
          firstBuy := if s.firstBuy = "" then date else s.firstBuy }
      else s
    | none => s
  | OpType.reduce =>
    match opShareDelta navRes latestNav op with
    | some ds =>
      if ds > 0 ∧ s.shares > 0 then
        let prevShares := s.shares
        let shares := max 0 (round2 (s.shares - ds))
        let cost := if prevShares > 0 then s.cost * (shares / prevShares) else s.cost
        { s with shares := shares, cost := cost }
      else s
    | none => s

/-- One replay step threading the resolver caches: perform the operation's
resolver call (if any), then apply the state transition. -/
def replayStep (fetch : String → ℕ → Option FundHistoryTableData) (code today : String)
    (latestNav : Option ℚ) (cs : NavCaches × RecState) (op : FundOperation) :
    NavCaches × RecState :=
  match opResolveReq today op with
  | none => (cs.1, applyOpStep latestNav none cs.2 op)
  | some (d, t) =>
    let r := resolveNavForOp fetch code d t cs.1
    (r.2, applyOpStep latestNav r.1 cs.2 op)

/-- The replay-order comparator (AppShell.tsx 438–442): order by date when
both dates are present and differ, else by `createdAt` (stable for same-date
entries, as JS sort is). `opLeb a b` is `cmp(a, b) <= 0`. -/
def opLeb (a b : FundOperation) : Bool :=
  let dateA := a.date.getD ""
  let dateB := b.date.getD ""
  if dateA ≠ "" ∧ dateB ≠ "" ∧ dateA ≠ dateB then dateLtb dateA dateB
  else a.createdAt ≤ b.createdAt

/-- Final emission of the replay (AppShell.tsx 518–533). -/
def finalizeHolding (code : String) (latestNav : Option ℚ) (s : RecState) :
    Option Holding :=
  if s.shares > 0 then
    let costPrice : Option ℚ := if s.shares ≠ 0 then some (s.cost / s.shares) else none
    let amount : Option ℚ :=
      if navTruthy latestNav then some (round2 (s.shares * latestNav.getD 0)) else none
    let profit : Option ℚ :=
      match amount with
      | some a => some (round2 (a - s.cost))
      | none => none
    some
      { code := code, method := HoldingMethod.shares, amount := amount, profit := profit,
        shares := some (round2 s.shares),
        costPrice :=
          match costPrice with
          | some c => some (roundTo 4 c)
          | none => none,
        firstBuy := s.firstBuy }
  else none

/-- `computeHoldingFromOperations` (AppShell.tsx 431–534): sort the fund's
operations by (date, insertion order), fold the replay step over them
threading the resolver caches, and emit the final Holding (`none` when the
replay ends with no positive share balance). -/
def computeHoldingFromOperations (fetch : String → ℕ → Option FundHistoryTableData)
    (code today : String) (ops : List FundOperation) (latestNav : Option ℚ)
    (caches : NavCaches) : Option Holding × NavCaches :=
  let sorted := List.insertionSort (fun a b => opLeb a b = true) ops
  let r := sorted.foldl (replayStep fetch code today latestNav)
    (caches, { shares := 0, cost := 0, firstBuy := "" })
  (finalizeHolding code latestNav r.2, r.1)

/-! ## Operation ledger and orchestrator (AppShell.tsx 1281–1344, 1819–1846) -/

/-- `recordOperation` (AppShell.tsx 1281–1286): prepend newest-first,
truncate to the most recent 200. -/
def recordOperation (op : FundOperation) (prev : List FundOperation) :
    List FundOperation :=
  let next := op :: prev
  if next.length > 200 then next.take 200 else next

/-- The batch-import ledger commit (AppShell.tsx 1819–1822): prepend a whole
batch, truncate to 200. -/
def commitBatchOperations (newOps prev : List FundOperation) : List FundOperation :=
  let next := newOps ++ prev
  if next.length > 200 then next.take 200 else next

/-- JS `a || b` on strings (empty string is falsy). -/
def strOr (a b : String) : String := if a = "" then b else a

/-- The `meta` argument of `buildTradeOperation`. -/
structure TradeMeta where
  amount : Option ℚ := none
  shares : Option ℚ := none
  feeRate : Option ℚ := none
  fee : Option ℚ := none
  date : Option String := none
  timing : TradeTiming
  isQdii : Bool
  method : HoldingMethod
  nav : Option ℚ := none

/-- `buildTradeOperation` (AppShell.tsx 1306–1344): stamp `createdAt = now`,
compute `applyAt` from the timing model, and set the initial status from the
monotonic rule (`now >= applyAt` at creation). `now`, `opId` and `today` are
the ambient `Date.now()`, `createOperationId()` and `todayCn()` reads. -/
def buildTradeOperation (now : ℤ) (opId today : String) (type : OpType)
    (prev next : Option Holding) (meta : TradeMeta) : FundOperation :=
  let date := strOr (meta.date.getD "") today
  let applyAt := computeApplyAt now today date meta.timing meta.isQdii
  { id := opId,
    code := strOr (match prev with
        | some p => p.code
        | none => "")
      (strOr (match next with
        | some n => n.code
        | none => "") ""),
    type := type,
    status := if now ≥ applyAt then OpStatus.confirmed else OpStatus.pending,
    createdAt := now,
    applyAt := applyAt,
    method := some meta.method,
    amount := meta.amount,
    shares := meta.shares,
    nav := meta.nav,
    feeRate := meta.feeRate,
    fee := meta.fee,
    date := some date,
    timing := some meta.timing,
    isQdii := some meta.isQdii,
    prev := prev,
    next := next }

/-- One operation's status refresh inside `updateStatus` (AppShell.tsx
353–372): a pending operation whose `applyAt` has passed flips to
confirmed; nothing else changes. -/
def stepStatus (now : ℤ) (op : FundOperation) : FundOperation :=
  if op.status = OpStatus.pending ∧ now ≥ op.applyAt then
    { op with status := OpStatus.confirmed }
  else op

/-- `updateStatus` (AppShell.tsx 353–367), run at mount and every minute
(the `changed ? next : prev` identity-preservation shortcut is
observationally the map itself). -/
def updateStatus (now : ℤ) (ops : List FundOperation) : List FundOperation :=
  ops.map (stepStatus now)

/-! ## Holdings-list mutations (AppShell.tsx 536–544, 1466-1488, 1801–1846) -/

/-- `isSameHolding` (AppShell.tsx 1848–1858). -/
def isSameHolding (a b : Holding) : Bool :=
  a.code = b.code && a.method = b.method && a.amount = b.amount &&
    a.profit = b.profit && a.shares = b.shares && a.costPrice = b.costPrice &&
    a.firstBuy = b.firstBuy

/-- The holdings-list update of `saveHolding` (AppShell.tsx 1466–1476):
replace the entry with the payload's code in place, or push when absent. -/
def saveHolding (payload : Holding) (prev : List Holding) : List Holding :=
  match prev.findIdx? (fun item => item.code = payload.code) with
  | some idx => prev.set idx payload
  | none => prev ++ [payload]

/-- `applyHoldingUpdate` (AppShell.tsx 536–544): keep the list untouched when
an equal holding is already present, else drop every entry with that code and
push the new one. -/
def applyHoldingUpdate (nextHolding : Holding) (prev : List Holding) : List Holding :=
  match prev.find? (fun item => item.code = nextHolding.code) with
  | some existing =>
    if isSameHolding existing nextHolding then prev
    else prev.filter (fun item => item.code ≠ nextHolding.code) ++ [nextHolding]
  | none => prev.filter (fun item => item.code ≠ nextHolding.code) ++ [nextHolding]

/-- The holdings commit of `applyBatchImport` (AppShell.tsx 1801–1818): drop
the fund's entry and push the final chained temp holding (or just drop when
the batch ended with no position). -/
def commitBatchHoldings (code : String) (tempHolding : Option Holding)
    (prev : List Holding) : List Holding :=
  match tempHolding with
  | some h => prev.filter (fun item => item.code ≠ code) ++ [h]
  | none => prev.filter (fun item => item.code ≠ code)

/-- The holdings part of `removeFund` (AppShell.tsx 1248): drop the fund. -/
def removeFundHoldings (code : String) (prev : List Holding) : List Holding :=
  prev.filter (fun item => item.code ≠ code)

/-- The client state the undo handler works on: the holdings list and the
operation ledger. -/
structure AppState where
  holdings : List Holding
  operations : List FundOperation
deriving DecidableEq, Repr

/-- `handleUndoOperation` (AppShell.tsx 1830–1846): look the operation up by
id, restore the holding from its `prev` snapshot (or drop the fund's holding
when `prev` is null) and remove the operation from the ledger. Subsequent
operations are not re-run. -/
def handleUndoOperation (operationId : String) (st : AppState) : AppState :=
  match st.operations.find? (fun item => item.id = operationId) with
  | none => st
  | some op =>
    { holdings :=
        match op.prev with
        | some prevHolding => saveHolding prevHolding st.holdings
        | none => st.holdings.filter (fun item => item.code ≠ op.code),
      operations := st.operations.filter (fun item => item.id ≠ operationId) }


/-! ## Concrete fixtures used in example clauses and witnesses -/

/-- Placeholder operation used to build concrete ledgers. -/
def dummyOp : FundOperation :=
  { id := "w0", code := "005827", type := OpType.add, status := OpStatus.confirmed,
    createdAt := 0, applyAt := 0 }

/-- A pending operation whose settlement lands at time 5. -/
def pendingOp5 : FundOperation :=
  { dummyOp with status := OpStatus.pending, applyAt := 5 }

/-- An `add` of amount 100 for 100 shares on 2024-05-10. -/
def c1AddOp : FundOperation :=
  { id := "c1a", code := "000001", type := OpType.add, status := OpStatus.confirmed,
    createdAt := 1, applyAt := 1, amount := some 100, shares := some 100,
    date := some "2024-05-10", timing := some TradeTiming.before }

/-- A `reduce` of 40 shares on 2024-05-11. -/
def c1ReduceOp : FundOperation :=
  { id := "c1r", code := "000001", type := OpType.reduce, status := OpStatus.confirmed,
    createdAt := 2, applyAt := 2, shares := some 40,
    date := some "2024-05-11", timing := some TradeTiming.before }

/-- An `add` of amount `A` with fee `F` (no explicit shares) on 2024-05-10. -/
def mkC4Op (A F : ℚ) : FundOperation :=
  { id := "c4", code := "000001", type := OpType.add, status := OpStatus.confirmed,
    createdAt := 1, applyAt := 1, amount := some A, fee := some F,
    date := some "2024-05-10", timing := some TradeTiming.before }

/-- Resolver caches holding NAV 1.0 for 000001 on 2024-05-10 (`before`). -/
def c4Caches : NavCaches :=
  { result := [(navKey "000001" "2024-05-10" TradeTiming.before, some 1)], pages := [] }

/-- A 10-share holding snapshot. -/
def w7Hold0 : Holding :=
  { code := "005827", method := HoldingMethod.shares, amount := none, profit := none,
    shares := some 10, costPrice := some 1, firstBuy := "2024-01-01" }

/-- The same fund after a further buy. -/
def w7Hold1 : Holding := { w7Hold0 with shares := some 20 }

/-- An operation carrying `w7Hold0` as its before-snapshot. -/
def w7OpA : FundOperation := { dummyOp with id := "a1", prev := some w7Hold0 }

/-- An unrelated, earlier-recorded operation. -/
def w7OpB : FundOperation := { dummyOp with id := "b2" }

/-- A client state with one holding and a two-entry ledger. -/
def w7St : AppState := { holdings := [w7Hold1], operations := [w7OpA, w7OpB] }

/-- A page source whose every request succeeds with a one-row table carrying
NAV 1.5 for 2024-05-10. -/
def c9GoodFetch : String → ℕ → Option FundHistoryTableData :=
  fun _ _ => some { content := [{ date := "2024-05-10", nav := 3/2 }], pages := some 1 }

/-- A NAV history with trading days 2024-05-09 and 2024-05-13 only. -/
def c2Hist : List FundHistoryPoint :=
  [{ date := "2024-05-09", nav := 1 }, { date := "2024-05-13", nav := 6/5 }]

/-! ## Theorems -/

/-- C3: for every valid order date, the computed `applyAt` is the order date
at 15:00 shifted by whole days — 1 for `before`, 2 for `after`, one more for
a QDII fund; in particular order date 2024-05-10 confirms at 2024-05-11T15:00
(`before`), 2024-05-12T15:00 (`after`), and one day later each with the QDII
flag set. -/
theorem computeApplyAt_spec :
    (∀ (now : ℤ) (today d : String) (t : TradeTiming) (q : Bool) (y : ℤ) (m dd : ℕ),
      d ≠ "" → parseIsoDate d = some (y, m, dd) →
      computeApplyAt now today d t q
        = epochAtHour y m (dd : ℤ) 15 + (tradeDelay t + qdiiExtra q) * msPerDay)
    ∧ computeApplyAt 0 "" "2024-05-10" TradeTiming.before false = epochAtHour 2024 5 11 15
    ∧ computeApplyAt 0 "" "2024-05-10" TradeTiming.after false = epochAtHour 2024 5 12 15
    ∧ computeApplyAt 0 "" "2024-05-10" TradeTiming.before true = epochAtHour 2024 5 12 15
    ∧ computeApplyAt 0 "" "2024-05-10" TradeTiming.after true = epochAtHour 2024 5 13 15 := by
  refine ⟨?_, by decide, by decide, by decide, by decide⟩
  intro now today d t q y m dd hd hparse
  simp only [computeApplyAt, if_neg hd, hparse]
  cases t <;> cases q <;>
    simp [tradeDelay, qdiiExtra, epochAtHour, makeDate, makeDay, msPerDay] <;> ring

/-- C3 witness: the general clause applied at order date 2024-05-10. -/
theorem computeApplyAt_spec_witness :
    (("2024-05-10" : String) ≠ "" ∧ parseIsoDate "2024-05-10" = some (2024, 5, 10))
    ∧ computeApplyAt 0 "2024-01-01" "2024-05-10" TradeTiming.before false
      = epochAtHour 2024 5 (10 : ℤ) 15 + (tradeDelay TradeTiming.before + qdiiExtra false) * msPerDay :=
  ⟨⟨by decide, by decide⟩,
    computeApplyAt_spec.1 0 "2024-01-01" "2024-05-10" TradeTiming.before false 2024 5 10
      (by decide) (by decide)⟩

/-- C5: recording an operation prepends it (newest first) and keeps the
ledger at no more than 200 entries; recording into a full 200-entry ledger
drops exactly the oldest entry. -/
theorem recordOperation_spec :
    ∀ (op : FundOperation) (ops : List FundOperation),
      (recordOperation op ops).head? = some op
      ∧ (ops.length ≤ 200 → (recordOperation op ops).length ≤ 200)
      ∧ (ops.length = 200 →
          recordOperation op ops = op :: ops.dropLast
          ∧ (recordOperation op ops).length = 200) := by
  intro op ops
  unfold recordOperation
  by_cases h : (op :: ops).length > 200
  · simp only [if_pos h]
    refine ⟨?_, fun _ => ?_, fun h200 => ⟨?_, ?_⟩⟩
    · rw [List.take_cons (by omega)]; rfl
    · simp [List.length_take]
    · rw [List.take_cons (by omega), List.dropLast_eq_take, h200]
    · simp [List.length_take]; omega
  · simp only [if_neg h]
    simp only [List.length_cons] at h
    refine ⟨rfl, fun _ => by simp; omega, fun h200 => ⟨by omega, by omega⟩⟩

/-- C5 witness: a full 200-entry ledger really stays at 200 and drops the
oldest entry. -/
theorem recordOperation_spec_witness :
    (List.replicate 200 dummyOp).length = 200
    ∧ recordOperation dummyOp (List.replicate 200 dummyOp)
        = dummyOp :: (List.replicate 200 dummyOp).dropLast :=
  ⟨by decide, ((recordOperation_spec dummyOp (List.replicate 200 dummyOp)).2.2 (by decide)).1⟩


/-- C6: an operation's status is `confirmed` iff the clock has passed its
`applyAt`, and the transition is monotonic: a trade whose settlement delay
has already elapsed is born confirmed, a pending operation flips to confirmed
once `now ≥ applyAt`, and no sequence of status refreshes ever sends a
confirmed operation back to pending. -/
theorem status_monotonic_spec :
    (∀ (now : ℤ) (opId today : String) (ty : OpType) (p n : Option Holding) (m : TradeMeta),
      (buildTradeOperation now opId today ty p n m).status = OpStatus.confirmed
        ↔ (buildTradeOperation now opId today ty p n m).applyAt ≤ now)
    ∧ (∀ (now : ℤ) (ops : List FundOperation) (op : FundOperation),
        op ∈ ops → stepStatus now op ∈ updateStatus now ops)
    ∧ (∀ (now : ℤ) (op : FundOperation),
        (stepStatus now op).status = OpStatus.confirmed
          ↔ (op.status = OpStatus.confirmed ∨ op.applyAt ≤ now))
    ∧ (∀ (now : ℤ) (op : FundOperation), (stepStatus now op).applyAt = op.applyAt)
    ∧ (∀ (op : FundOperation) (nows : List ℤ),
        op.status = OpStatus.confirmed →
        (nows.foldl (fun o t => stepStatus t o) op).status = OpStatus.confirmed)
    ∧ (∀ (now t₀ : ℤ) (op : FundOperation),
        (op.status = OpStatus.confirmed ↔ op.applyAt ≤ t₀) → t₀ ≤ now →
        ((stepStatus now op).status = OpStatus.confirmed ↔ op.applyAt ≤ now)) := by
  have hstep : ∀ (now : ℤ) (op : FundOperation),
      (stepStatus now op).status = OpStatus.confirmed
        ↔ (op.status = OpStatus.confirmed ∨ op.applyAt ≤ now) := by
    intro now op
    unfold stepStatus
    by_cases h : op.status = OpStatus.pending ∧ now ≥ op.applyAt
    · simp only [if_pos h]
      simp [h.2]
    · simp only [if_neg h]
      cases hs : op.status with
      | pending =>
        rw [not_and_or] at h
        rcases h with h | h
        · exact absurd hs h
        · constructor
          · intro hc; cases hc
          · rintro (hc | hle)
            · cases hc
            · exact absurd hle (by omega)
      | confirmed => simp [hs]
  refine ⟨?_, ?_, hstep, ?_, ?_, ?_⟩
  · intro now opId today ty p n m
    have h1 : (buildTradeOperation now opId today ty p n m).applyAt
        = computeApplyAt now today (strOr (m.date.getD "") today) m.timing m.isQdii := rfl
    have h2 : (buildTradeOperation now opId today ty p n m).status
        = if now ≥ computeApplyAt now today (strOr (m.date.getD "") today) m.timing m.isQdii
          then OpStatus.confirmed else OpStatus.pending := rfl
    rw [h1, h2]
    by_cases h : now ≥ computeApplyAt now today (strOr (m.date.getD "") today) m.timing m.isQdii
    · simpa [if_pos h] using h
    · simp only [if_neg h]
      constructor
      · intro hc; cases hc
      · intro hle; exact absurd hle h
  · intro now ops op hmem
    exact List.mem_map_of_mem (stepStatus now) hmem
  · intro now op
    unfold stepStatus
    by_cases h : op.status = OpStatus.pending ∧ now ≥ op.applyAt <;> simp [h]
  · intro op nows hc
    induction nows generalizing op with
    | nil => exact hc
    | cons t ts ih =>
      refine ih (stepStatus t op) ?_
      rw [hstep]
      exact Or.inl hc
  · intro now t₀ op hiff hle
    rw [hstep]
    constructor
    · rintro (hc | h)
      · exact le_trans (hiff.mp hc) hle
      · exact h
    · intro h
      exact Or.inr h

/-- C6 witness: a pending operation settling at 5, in a consistent state at
time 3, is confirmed exactly when refreshed at a time past 5 (here 9). -/
theorem status_monotonic_spec_witness :
    ((pendingOp5.status = OpStatus.confirmed ↔ pendingOp5.applyAt ≤ (3 : ℤ))
      ∧ (3 : ℤ) ≤ 9)
    ∧ ((stepStatus 9 pendingOp5).status = OpStatus.confirmed
        ↔ pendingOp5.applyAt ≤ (9 : ℤ)) :=
  ⟨⟨by decide, by decide⟩,
    status_monotonic_spec.2.2.2.2.2 9 3 pendingOp5 (by decide) (by decide)⟩

/-- C1: a replayed `reduce` whose resolved share delta `d` is positive,
applied to a running state with `p > 0` previous shares, leaves
`max 0 (round2 (p - d))` remaining shares and scales the running cost by the
fraction of shares retained; in particular, from shares=100 and cost=100 a
reduce of 40 shares with latestNav 1.2 reconciles to shares=60, cost=60,
amount=72 and profit 72 - 60 = 12. -/
theorem reduce_scales_cost :
    (∀ (latestNav navRes : Option ℚ) (s : RecState) (op : FundOperation) (d p : ℚ),
      op.type = OpType.reduce →
      opShareDelta navRes latestNav op = some d → 0 < d →
      s.shares = p → 0 < p →
      (applyOpStep latestNav navRes s op).shares = max 0 (round2 (p - d))
        ∧ (applyOpStep latestNav navRes s op).cost
          = s.cost * (max 0 (round2 (p - d)) / p))
    ∧ computeHoldingFromOperations (fun _ _ => none) "000001" "" [c1AddOp, c1ReduceOp]
        (some (6/5)) ⟨[], []⟩
      = (some { code := "000001", method := HoldingMethod.shares, amount := some 72,
                profit := some 12, shares := some 60, costPrice := some 1,
                firstBuy := "2024-05-10" }, ⟨[], []⟩) := by
  constructor
  · intro latestNav navRes s op d p hty hdelta hd hs hp
    simp only [applyOpStep, hty, hdelta, hs,
      if_pos (show d > 0 ∧ p > 0 from ⟨hd, hp⟩), if_pos hp, and_self]
  · with_unfolding_all decide

/-- C1 witness: the general clause ran at the concrete reduce of the claim,
shares 100 down by 40 with cost 100. -/
theorem reduce_scales_cost_witness :
    (c1ReduceOp.type = OpType.reduce
      ∧ opShareDelta none (some (6/5)) c1ReduceOp = some 40
      ∧ (0 : ℚ) < 40
      ∧ (({ shares := 100, cost := 100, firstBuy := "2024-05-10" } : RecState)).shares = 100
      ∧ (0 : ℚ) < 100)
    ∧ (applyOpStep (some (6/5)) none { shares := 100, cost := 100, firstBuy := "2024-05-10" }
        c1ReduceOp).shares = max 0 (round2 (100 - 40)) :=
  ⟨⟨rfl, by with_unfolding_all decide, by with_unfolding_all decide, rfl,
      by with_unfolding_all decide⟩,
    (reduce_scales_cost.1 (some (6/5)) none
      { shares := 100, cost := 100, firstBuy := "2024-05-10" } c1ReduceOp 40 100 rfl
      (by with_unfolding_all decide) (by with_unfolding_all decide) rfl
      (by with_unfolding_all decide)).1⟩

/-- A quantity that two-decimal rounding fixes stays fixed under negation
(round half up moves ties upward, but a fixed point is an exact multiple of
1/100, where no tie occurs). -/
theorem round2_neg_of_fixed {q : ℚ} (h : round2 q = q) : round2 (-q) = -q := by
  have hk : ((round (q * 10 ^ 2) : ℤ) : ℚ) = q * 10 ^ 2 := by
    have h10 : (10 : ℚ) ^ 2 ≠ 0 := by norm_num
    have := congrArg (fun x : ℚ => x * 10 ^ 2) h
    simpa [round2, roundTo, div_mul_cancel₀, h10] using this
  have hneg : (-q) * 10 ^ 2 = ((-(round (q * 10 ^ 2)) : ℤ) : ℚ) := by
    push_cast
    linear_combination hk
  rw [round2, roundTo, hneg, round_intCast]
  push_cast
  linear_combination (-1 / (10 : ℚ) ^ 2) * hk

/-- C4 counterexample: a single `add` of amount 100 with fee 1 at NAV 1.0
into an empty position reconciles to profit -1, not 0 — the fee makes the
immediate profit negative. -/
theorem add_fee_profit_counterexample :
    (computeHoldingFromOperations (fun _ _ => none) "000001" "" [mkC4Op 100 1] (some 1)
        c4Caches).1
      = some { code := "000001", method := HoldingMethod.shares, amount := some 100,
               profit := some (-1), shares := some 100, costPrice := some (101/100),
               firstBuy := "2024-05-10" }
    ∧ some (-1 : ℚ) ≠ some (0 : ℚ) := by
  with_unfolding_all decide

/-- C4 amended: an `add` of amount `A` (positive, two-decimal) with fee `F`
(two-decimal) at NAV 1.0 into an empty position yields shares `A` and cost
basis `A + F`; the reconciled profit is `-F` (so 0 exactly when the fee is
0), not 0 in general. In particular A=100, F=1 reconciles to shares 100,
cost 101, profit -1. -/
theorem add_conservation_amended :
    (∀ A F : ℚ, 0 < A → round2 A = A → round2 F = F →
      applyOpStep (some 1) (some 1) { shares := 0, cost := 0, firstBuy := "" } (mkC4Op A F)
        = { shares := A, cost := A + F, firstBuy := "2024-05-10" }
      ∧ finalizeHolding "000001" (some 1)
          { shares := A, cost := A + F, firstBuy := "2024-05-10" }
        = some { code := "000001", method := HoldingMethod.shares, amount := some A,
                 profit := some (-F), shares := some A,
                 costPrice := some (roundTo 4 ((A + F) / A)), firstBuy := "2024-05-10" })
    ∧ computeHoldingFromOperations (fun _ _ => none) "000001" "" [mkC4Op 100 1] (some 1)
        c4Caches
      = (some { code := "000001", method := HoldingMethod.shares, amount := some 100,
                profit := some (-1), shares := some 100, costPrice := some (101/100),
                firstBuy := "2024-05-10" }, c4Caches) := by
  constructor
  · intro A F hA h2A h2F
    have hone : navTruthy (some 1) = true := by decide
    have hdelta : opShareDelta (some 1) (some 1) (mkC4Op A F) = some A := by
      simp [opShareDelta, mkC4Op, resolveShareDelta, hone, h2A]
    constructor
    · have hty : (mkC4Op A F).type = OpType.add := rfl
      have hdate : (mkC4Op A F).date = some "2024-05-10" := rfl
      have hfee : (mkC4Op A F).fee = some F := rfl
      have hamt : (mkC4Op A F).amount = some A := rfl
      simp only [applyOpStep, hty, hdelta, hdate, hfee, hamt]
      simp [hA]
    · have hAne : A ≠ 0 := ne_of_gt hA
      have hprofit : A - (A + F) = -F := by ring
      simp [finalizeHolding, hA, hAne, hone, mul_one, h2A, hprofit,
        round2_neg_of_fixed h2F]
  · with_unfolding_all decide

/-- C4 witness: the amended clause at A=100, F=1. -/
theorem add_conservation_amended_witness :
    ((0 : ℚ) < 100 ∧ round2 100 = 100 ∧ round2 1 = 1)
    ∧ applyOpStep (some 1) (some 1) { shares := 0, cost := 0, firstBuy := "" } (mkC4Op 100 1)
      = { shares := 100, cost := 100 + 1, firstBuy := "2024-05-10" } :=
  ⟨⟨by with_unfolding_all decide, by with_unfolding_all decide, by with_unfolding_all decide⟩,
    (add_conservation_amended.1 100 1 (by with_unfolding_all decide)
      (by with_unfolding_all decide) (by with_unfolding_all decide)).1⟩

/-- `saveHolding` replaces in place at the head when the head already has the
payload's code. -/
theorem saveHolding_cons_eq (h a : Holding) (as : List Holding) (pa : a.code = h.code) :
    saveHolding h (a :: as) = h :: as := by
  unfold saveHolding
  rw [List.findIdx?_cons, if_pos (by simp [pa])]
  simp

/-- `saveHolding` walks past a head with a different code. -/
theorem saveHolding_cons_ne (h a : Holding) (as : List Holding) (pa : a.code ≠ h.code) :
    saveHolding h (a :: as) = a :: saveHolding h as := by
  unfold saveHolding
  rw [List.findIdx?_cons, if_neg (by simp [pa]), List.findIdx?_succ]
  cases hidx : List.findIdx? (fun item => item.code = h.code) as with
  | none => simp
  | some i => simp

/-- After `saveHolding h l`, looking the code up finds exactly `h`. -/
theorem saveHolding_find_self : ∀ (l : List Holding) (h : Holding),
    (saveHolding h l).find? (fun i => i.code = h.code) = some h := by
  intro l h
  induction l with
  | nil => simp [saveHolding]
  | cons a as ih =>
    by_cases pa : a.code = h.code
    · rw [saveHolding_cons_eq h a as pa]
      simp
    · rw [saveHolding_cons_ne h a as pa, List.find?_cons_of_neg _ (by simp [pa])]
      exact ih

/-- `saveHolding h` leaves every entry with a different code untouched. -/
theorem saveHolding_filter_ne : ∀ (l : List Holding) (h : Holding),
    (saveHolding h l).filter (fun i => i.code ≠ h.code)
      = l.filter (fun i => i.code ≠ h.code) := by
  intro l h
  induction l with
  | nil => simp [saveHolding]
  | cons a as ih =>
    by_cases pa : a.code = h.code
    · rw [saveHolding_cons_eq h a as pa]
      rw [List.filter_cons_of_neg (by simp), List.filter_cons_of_neg (by simp [pa])]
    · rw [saveHolding_cons_ne h a as pa]
      rw [List.filter_cons_of_pos (by simp [pa]), List.filter_cons_of_pos (by simp [pa]), ih]

/-- C7: undoing the operation with id `x` removes exactly that operation from
the ledger (all other entries, earlier and later, survive unchanged and are
not re-run) and restores the fund's holding to the operation's `prev`
snapshot — the entry for that code becomes `prev` and every other holding is
untouched — or deletes the fund's holding when `prev` is null. -/
theorem handleUndoOperation_spec :
    ∀ (st : AppState) (x : String) (l₁ l₂ : List FundOperation) (op : FundOperation),
      st.operations = l₁ ++ op :: l₂ → op.id = x →
      (∀ o ∈ l₁, o.id ≠ x) → (∀ o ∈ l₂, o.id ≠ x) →
      (handleUndoOperation x st).operations = l₁ ++ l₂
      ∧ (∀ h, op.prev = some h →
          (handleUndoOperation x st).holdings.find? (fun i => i.code = h.code) = some h
          ∧ (handleUndoOperation x st).holdings.filter (fun i => i.code ≠ h.code)
            = st.holdings.filter (fun i => i.code ≠ h.code))
      ∧ (op.prev = none →
          (handleUndoOperation x st).holdings
            = st.holdings.filter (fun i => i.code ≠ op.code)) := by
  intro st x l₁ l₂ op hops hid h₁ h₂
  have hfind : st.operations.find? (fun item => item.id = x) = some op := by
    rw [hops, List.find?_append]
    have hnone : l₁.find? (fun item => item.id = x) = none := by
      rw [List.find?_eq_none]
      intro o ho
      simp [h₁ o ho]
    rw [hnone, Option.none_or, List.find?_cons_of_pos _ (by simp [hid])]
  have hfilter : st.operations.filter (fun item => item.id ≠ x) = l₁ ++ l₂ := by
    rw [hops, List.filter_append, List.filter_cons_of_neg (by simp [hid])]
    rw [List.filter_eq_self.mpr (fun o ho => by simp [h₁ o ho]),
      List.filter_eq_self.mpr (fun o ho => by simp [h₂ o ho])]
  unfold handleUndoOperation
  rw [hfind]
  dsimp only
  refine ⟨hfilter, ?_, ?_⟩
  · intro h hprev
    rw [hprev]
    exact ⟨saveHolding_find_self st.holdings h, saveHolding_filter_ne st.holdings h⟩
  · intro hprev
    rw [hprev]

/-- C7 witness: undoing operation `a1` in a two-entry ledger removes exactly
it (the other operation survives). -/
theorem handleUndoOperation_spec_witness :
    (w7St.operations = [] ++ w7OpA :: [w7OpB] ∧ w7OpA.id = "a1"
      ∧ (∀ o ∈ ([] : List FundOperation), o.id ≠ "a1")
      ∧ (∀ o ∈ [w7OpB], o.id ≠ "a1"))
    ∧ (handleUndoOperation "a1" w7St).operations = [] ++ [w7OpB] :=
  ⟨⟨rfl, rfl, by simp, by decide⟩,
    (handleUndoOperation_spec w7St "a1" [] [w7OpB] w7OpA rfl rfl (by simp) (by decide)).1⟩

/-- `saveHolding` for an absent code appends. -/
theorem saveHolding_of_not_mem (h : Holding) (l : List Holding)
    (hmem : h.code ∉ l.map Holding.code) : saveHolding h l = l ++ [h] := by
  unfold saveHolding
  have hnone : List.findIdx? (fun item => item.code = h.code) l = none := by
    rw [List.findIdx?_eq_none_iff]
    intro x hx
    simp only [decide_eq_false_iff_not]
    intro hc
    exact hmem (hc ▸ List.mem_map_of_mem Holding.code hx)
  rw [hnone]

/-- `saveHolding` for a present code keeps the code list unchanged. -/
theorem saveHolding_map_code_of_mem : ∀ (l : List Holding) (h : Holding),
    h.code ∈ l.map Holding.code →
    (saveHolding h l).map Holding.code = l.map Holding.code := by
  intro l h
  induction l with
  | nil => simp
  | cons a as ih =>
    intro hmem
    by_cases pa : a.code = h.code
    · rw [saveHolding_cons_eq h a as pa]
      simp [pa]
    · rw [saveHolding_cons_ne h a as pa]
      simp only [List.map_cons]
      congr 1
      apply ih
      have hmem' : h.code = a.code ∨ ∃ b ∈ as, b.code = h.code := by simpa using hmem
      rcases hmem' with h' | ⟨b, hb, hbc⟩
      · exact absurd h'.symm pa
      · exact List.mem_map.mpr ⟨b, hb, hbc⟩

/-- `saveHolding` preserves one-holding-per-code. -/
theorem saveHolding_nodup (h : Holding) (l : List Holding)
    (hn : (l.map Holding.code).Nodup) :
    ((saveHolding h l).map Holding.code).Nodup := by
  by_cases hmem : h.code ∈ l.map Holding.code
  · rw [saveHolding_map_code_of_mem l h hmem]
    exact hn
  · rw [saveHolding_of_not_mem h l hmem, List.map_append, List.nodup_append]
    refine ⟨hn, by simp, ?_⟩
    intro a ha hb
    simp only [List.map_cons, List.map_nil, List.mem_singleton] at hb
    exact hmem (hb ▸ ha)

/-- Filtering a code out and pushing one entry with that code preserves
one-holding-per-code. -/
theorem nodup_filter_ne_append (l : List Holding) (h : Holding)
    (hn : (l.map Holding.code).Nodup) :
    (((l.filter (fun i => i.code ≠ h.code)) ++ [h]).map Holding.code).Nodup := by
  rw [List.map_append, List.nodup_append]
  refine ⟨List.Nodup.sublist (List.Sublist.map Holding.code (List.filter_sublist l)) hn,
    by simp, ?_⟩
  intro a ha hb
  simp only [List.map_cons, List.map_nil, List.mem_singleton] at hb
  rcases List.mem_map.mp ha with ⟨x, hx, hxa⟩
  rcases List.mem_filter.mp hx with ⟨_, hne⟩
  rw [hb] at hxa
  exact absurd hxa (by simpa using hne)

/-- The plain filter keeps one-holding-per-code. -/
theorem nodup_filter_code (p : Holding → Bool) (l : List Holding)
    (hn : (l.map Holding.code).Nodup) :
    ((l.filter p).map Holding.code).Nodup :=
  List.Nodup.sublist (List.Sublist.map Holding.code (List.filter_sublist l)) hn

/-- C10: every holdings-list mutation — `saveHolding`, `applyHoldingUpdate`,
the batch-import commit, fund removal and undo — keeps at most one Holding
per fund code, and writing a holding whose code is already present replaces
that entry (same code multiset, same length) instead of adding a
duplicate. -/
theorem holdings_code_unique :
    (∀ (p : Holding) (l : List Holding), (l.map Holding.code).Nodup →
      ((saveHolding p l).map Holding.code).Nodup)
    ∧ (∀ (p : Holding) (l : List Holding), p.code ∈ l.map Holding.code →
        (saveHolding p l).map Holding.code = l.map Holding.code
        ∧ (saveHolding p l).length = l.length)
    ∧ (∀ (nh : Holding) (l : List Holding), (l.map Holding.code).Nodup →
        ((applyHoldingUpdate nh l).map Holding.code).Nodup)
    ∧ (∀ (code : String) (th : Option Holding) (l : List Holding),
        (∀ h, th = some h → h.code = code) → (l.map Holding.code).Nodup →
        ((commitBatchHoldings code th l).map Holding.code).Nodup)
    ∧ (∀ (code : String) (l : List Holding), (l.map Holding.code).Nodup →
        ((removeFundHoldings code l).map Holding.code).Nodup)
    ∧ (∀ (x : String) (st : AppState), (st.holdings.map Holding.code).Nodup →
        ((handleUndoOperation x st).holdings.map Holding.code).Nodup) := by
  refine ⟨saveHolding_nodup, ?_, ?_, ?_, ?_, ?_⟩
  · intro p l hmem
    have hmap := saveHolding_map_code_of_mem l p hmem
    refine ⟨hmap, ?_⟩
    have := congrArg List.length hmap
    simpa using this
  · intro nh l hn
    unfold applyHoldingUpdate
    cases hf : l.find? (fun item => item.code = nh.code) with
    | none => exact nodup_filter_ne_append l nh hn
    | some existing =>
      by_cases hsame : isSameHolding existing nh
      · simpa [hsame] using hn
      · simpa [hsame] using nodup_filter_ne_append l nh hn
  · intro code th l hth hn
    cases th with
    | none => exact nodup_filter_code _ l hn
    | some h =>
      have hc : h.code = code := hth h rfl
      subst hc
      exact nodup_filter_ne_append l h hn
  · intro code l hn
    exact nodup_filter_code _ l hn
  · intro x st hn
    unfold handleUndoOperation
    cases hf : st.operations.find? (fun item => item.id = x) with
    | none => exact hn
    | some op =>
      dsimp only
      cases op.prev with
      | none => exact nodup_filter_code _ st.holdings hn
      | some h => exact saveHolding_nodup h st.holdings hn

/-- C10 witness: writing a changed snapshot for an already-present code into
a two-fund holdings list keeps the codes duplicate-free and replaces in
place. -/
theorem holdings_code_unique_witness :
    (w7Hold0.code ∈ [w7Hold1, { w7Hold0 with code := "000001" }].map Holding.code)
    ∧ (saveHolding w7Hold0 [w7Hold1, { w7Hold0 with code := "000001" }]).map Holding.code
      = [w7Hold1, { w7Hold0 with code := "000001" }].map Holding.code :=
  ⟨by decide,
    ((holdings_code_unique.2.1 w7Hold0 [w7Hold1, { w7Hold0 with code := "000001" }]
      (by decide)).1)⟩

/-- A page request never touches the result cache. -/
theorem fetchPage_result_eq (f : String → ℕ → Option FundHistoryTableData)
    (code : String) (p : ℕ) (caches : NavCaches) :
    ((fetchPage f code p caches).2).result = caches.result := by
  unfold fetchPage
  cases f code p <;> rfl

/-- The page-scan loop never touches the result cache. -/
theorem scanPages_result_eq (f : String → ℕ → Option FundHistoryTableData)
    (code date : String) (t : TradeTiming) :
    ∀ (pages : List ℕ) (caches : NavCaches),
      ((scanPages f code date t pages caches).2).result = caches.result := by
  intro pages
  induction pages with
  | nil => intro caches; rfl
  | cons p ps ih =>
    intro caches
    unfold scanPages
    rcases hfp : fetchPage f code p caches with ⟨r, caches₁⟩
    have h1 : caches₁.result = caches.result := by
      have := fetchPage_result_eq f code p caches
      rw [hfp] at this
      exact this
    cases r with
    | none =>
      dsimp only
      rw [ih caches₁, h1]
    | some data =>
      dsimp only
      cases findNavInHistoryStrict date t data.content with
      | some nav => exact h1
      | none =>
        dsimp only
        rw [ih caches₁, h1]

/-- The resolution promise body never touches the result cache. -/
theorem computeResolve_result_eq (f : String → ℕ → Option FundHistoryTableData)
    (code date : String) (t : TradeTiming) (caches : NavCaches) :
    ((computeResolve f code date t caches).2).result = caches.result := by
  unfold computeResolve
  cases findNavFromHistoryTable date t caches.pages code with
  | some v => rfl
  | none =>
    dsimp only
    rcases hfp : fetchPage f code 1 caches with ⟨r, caches₁⟩
    have h1 : caches₁.result = caches.result := by
      have := fetchPage_result_eq f code 1 caches
      rw [hfp] at this
      exact this
    cases r with
    | none => exact h1
    | some first =>
      dsimp only
      cases findNavInHistoryStrict date t first.content with
      | some nav => exact h1
      | none =>
        dsimp only
        rw [scanPages_result_eq, h1]

/-- C9 counterexample: with every page request failing, resolving
(005827, 2024-05-10, before) returns null and stores that null in the result
cache; a later call with the same key against a now-healthy page source
returns the cached null without refetching — although the same resolution
from an empty cache finds NAV 1.5. The failure is cached as a negative
entry and is never retried. -/
theorem fetch_failure_cached_counterexample :
    resolveNavForOp (fun _ _ => none) "005827" "2024-05-10" TradeTiming.before ⟨[], []⟩
      = (none, ⟨[(navKey "005827" "2024-05-10" TradeTiming.before, none)], []⟩)
    ∧ resolveNavForOp c9GoodFetch "005827" "2024-05-10" TradeTiming.before
        ⟨[(navKey "005827" "2024-05-10" TradeTiming.before, none)], []⟩
      = (none, ⟨[(navKey "005827" "2024-05-10" TradeTiming.before, none)], []⟩)
    ∧ (resolveNavForOp c9GoodFetch "005827" "2024-05-10" TradeTiming.before ⟨[], []⟩).1
      = some (3/2) := by
  with_unfolding_all decide

/-- C9 amended: the result of a resolution attempt — a found NAV or a null,
including a null caused by failing page requests — is always stored under the
`(code, date, timing)` key, and any later call with that key returns the
stored value and leaves the caches unchanged, regardless of how the page
source would now behave (no retry). -/
theorem resolveNav_caches_result :
    ∀ (fetch : String → ℕ → Option FundHistoryTableData) (code date : String)
      (timing : TradeTiming) (caches : NavCaches),
      code ≠ "" → normalizeHistoryDate date ≠ "" →
      ∀ fetch' : String → ℕ → Option FundHistoryTableData,
        resolveNavForOp fetch' code date timing
            ((resolveNavForOp fetch code date timing caches).2)
          = ((resolveNavForOp fetch code date timing caches).1,
             (resolveNavForOp fetch code date timing caches).2) := by
  intro fetch code date timing caches hcode hdate fetch'
  have hvalid : ¬(code = "" ∨ normalizeHistoryDate date = "") := by
    rintro (h | h)
    · exact hcode h
    · exact hdate h
  simp only [resolveNavForOp, if_neg hvalid]
  cases hl : caches.result.lookup (navKey code (normalizeHistoryDate date) timing) with
  | some v => simp [hl]
  | none =>
    simp only [hl]
    rcases hcr : computeResolve fetch code (normalizeHistoryDate date) timing caches
      with ⟨resolved, caches₁⟩
    simp [hcr, List.lookup_cons_self]

/-- C9 witness: the amended clause at the counterexample's inputs — after the
failed-fetch resolution, a retry against the healthy source just replays the
cached result. -/
theorem resolveNav_caches_result_witness :
    (("005827" : String) ≠ "" ∧ normalizeHistoryDate "2024-05-10" ≠ "")
    ∧ resolveNavForOp c9GoodFetch "005827" "2024-05-10" TradeTiming.before
        ((resolveNavForOp (fun _ _ => none) "005827" "2024-05-10" TradeTiming.before
          ⟨[], []⟩).2)
      = ((resolveNavForOp (fun _ _ => none) "005827" "2024-05-10" TradeTiming.before
          ⟨[], []⟩).1,
         (resolveNavForOp (fun _ _ => none) "005827" "2024-05-10" TradeTiming.before
          ⟨[], []⟩).2) :=
  ⟨⟨by decide, by decide⟩,
    resolveNav_caches_result (fun _ _ => none) "005827" "2024-05-10" TradeTiming.before
      ⟨[], []⟩ (by decide) (by decide) c9GoodFetch⟩

/-- An invalid resolution key (empty code or empty normalized date) resolves
to null and never touches the caches, whatever the page source does. -/
theorem resolveNav_invalid (f : String → ℕ → Option FundHistoryTableData)
    (code d : String) (t : TradeTiming) (caches : NavCaches)
    (h : code = "" ∨ normalizeHistoryDate d = "") :
    resolveNavForOp f code d t caches = (none, caches) := by
  unfold resolveNavForOp
  rw [if_pos h]

/-- A resolution whose key is already in the result cache replays the cached
value and leaves the caches unchanged, whatever the page source does. -/
theorem resolveNav_hit (f : String → ℕ → Option FundHistoryTableData)
    (code d : String) (t : TradeTiming) (caches : NavCaches) (v : Option ℚ)
    (hval : ¬(code = "" ∨ normalizeHistoryDate d = ""))
    (hl : caches.result.lookup (navKey code (normalizeHistoryDate d) t) = some v) :
    resolveNavForOp f code d t caches = (v, caches) := by
  unfold resolveNavForOp
  rw [if_neg hval]
  simp only [hl]

/-- Resolution only ever adds result-cache entries; existing bindings keep
their values. -/
theorem resolveNav_mono (f : String → ℕ → Option FundHistoryTableData)
    (code d : String) (t : TradeTiming) (caches : NavCaches) (k : String)
    (v : Option ℚ) (hk : caches.result.lookup k = some v) :
    ((resolveNavForOp f code d t caches).2).result.lookup k = some v := by
  by_cases hval : code = "" ∨ normalizeHistoryDate d = ""
  · rw [resolveNav_invalid f code d t caches hval]
    exact hk
  · unfold resolveNavForOp
    rw [if_neg hval]
    cases hl : caches.result.lookup (navKey code (normalizeHistoryDate d) t) with
    | some w =>
      simp only [hl]
      exact hk
    | none =>
      simp only [hl]
      rcases hcr : computeResolve f code (normalizeHistoryDate d) t caches
        with ⟨resolved, caches₁⟩
      have h1 : caches₁.result = caches.result := by
        have h2 := computeResolve_result_eq f code (normalizeHistoryDate d) t caches
        rw [hcr] at h2
        exact h2
      have hne : (k == navKey code (normalizeHistoryDate d) t) = false := by
        apply beq_eq_false_iff_ne.mpr
        intro heq
        rw [heq] at hk
        rw [hk] at hl
        cases hl
      dsimp only
      simp only [List.lookup_cons, hne, h1]
      exact hk

/-- After a resolution with a valid key, the result cache binds that key to
the value just returned. -/
theorem resolveNav_cached_after (f : String → ℕ → Option FundHistoryTableData)
    (code d : String) (t : TradeTiming) (caches : NavCaches)
    (hval : ¬(code = "" ∨ normalizeHistoryDate d = "")) :
    ((resolveNavForOp f code d t caches).2).result.lookup
        (navKey code (normalizeHistoryDate d) t)
      = some (resolveNavForOp f code d t caches).1 := by
  unfold resolveNavForOp
  rw [if_neg hval]
  cases hl : caches.result.lookup (navKey code (normalizeHistoryDate d) t) with
  | some w =>
    simp only [hl]
  | none =>
    simp only [hl]
    rcases hcr : computeResolve f code (normalizeHistoryDate d) t caches
      with ⟨resolved, caches₁⟩
    dsimp only
    exact List.lookup_cons_self

/-- A replay step only ever adds result-cache entries. -/
theorem replayStep_mono (f : String → ℕ → Option FundHistoryTableData)
    (code today : String) (nav : Option ℚ) (op : FundOperation)
    (cs : NavCaches × RecState) (k : String) (v : Option ℚ)
    (hk : cs.1.result.lookup k = some v) :
    ((replayStep f code today nav cs op).1).result.lookup k = some v := by
  unfold replayStep
  cases hreq : opResolveReq today op with
  | none => exact hk
  | some dt =>
    rcases dt with ⟨d, t⟩
    dsimp only
    exact resolveNav_mono f code d t cs.1 k v hk

/-- A replay step re-run from any cache that contains the first run's
result-cache bindings changes nothing in that cache and produces the same
state, for any page source. -/
theorem replayStep_stable (f f' : String → ℕ → Option FundHistoryTableData)
    (code today : String) (nav : Option ℚ) (op : FundOperation)
    (c : NavCaches) (s : RecState) (cB : NavCaches)
    (hsub : ∀ (k : String) (v : Option ℚ),
      ((replayStep f code today nav (c, s) op).1).result.lookup k = some v →
      cB.result.lookup k = some v) :
    replayStep f' code today nav (cB, s) op
      = (cB, (replayStep f code today nav (c, s) op).2) := by
  unfold replayStep at hsub ⊢
  cases hreq : opResolveReq today op with
  | none => rfl
  | some dt =>
    rcases dt with ⟨d, t⟩
    rw [hreq] at hsub
    dsimp only at hsub ⊢
    by_cases hval : code = "" ∨ normalizeHistoryDate d = ""
    · rw [resolveNav_invalid f' code d t cB hval, resolveNav_invalid f code d t c hval]
    · have hcache := resolveNav_cached_after f code d t c hval
      have hkey := hsub _ _ hcache
      rw [resolveNav_hit f' code d t cB _ hval hkey]

/-- The whole replay fold only ever adds result-cache entries. -/
theorem replayFold_mono (f : String → ℕ → Option FundHistoryTableData)
    (code today : String) (nav : Option ℚ) :
    ∀ (ops : List FundOperation) (c : NavCaches) (s : RecState) (k : String)
      (v : Option ℚ), c.result.lookup k = some v →
      ((ops.foldl (replayStep f code today nav) (c, s)).1).result.lookup k = some v := by
  intro ops
  induction ops with
  | nil =>
    intro c s k v hk
    exact hk
  | cons op rest ih =>
    intro c s k v hk
    rw [List.foldl_cons]
    rcases hstep : replayStep f code today nav (c, s) op with ⟨c₁, s₁⟩
    have hmono := replayStep_mono f code today nav op (c, s) k v hk
    rw [hstep] at hmono
    exact ih c₁ s₁ k v hmono

/-- Re-running the replay fold from any cache that contains the first run's
final result-cache bindings changes nothing in that cache and reproduces the
first run's state, for any page source. -/
theorem replayFold_stable (f f' : String → ℕ → Option FundHistoryTableData)
    (code today : String) (nav : Option ℚ) :
    ∀ (ops : List FundOperation) (c : NavCaches) (s : RecState) (cB : NavCaches),
      (∀ (k : String) (v : Option ℚ),
        ((ops.foldl (replayStep f code today nav) (c, s)).1).result.lookup k = some v →
        cB.result.lookup k = some v) →
      ops.foldl (replayStep f' code today nav) (cB, s)
        = (cB, (ops.foldl (replayStep f code today nav) (c, s)).2) := by
  intro ops
  induction ops with
  | nil =>
    intro c s cB hsub
    rfl
  | cons op rest ih =>
    intro c s cB hsub
    rw [List.foldl_cons, List.foldl_cons]
    rcases hstep : replayStep f code today nav (c, s) op with ⟨c₁, s₁⟩
    have hsub₁ : ∀ (k : String) (v : Option ℚ),
        ((rest.foldl (replayStep f code today nav) (c₁, s₁)).1).result.lookup k = some v →
        cB.result.lookup k = some v := by
      intro k v hkv
      apply hsub
      rw [List.foldl_cons, hstep]
      exact hkv
    have hstable := replayStep_stable f f' code today nav op c s cB (by
      intro k v hkv
      rw [hstep] at hkv
      exact hsub₁ k v (replayFold_mono f code today nav rest c₁ s₁ k v hkv))
    rw [hstep] at hstable
    rw [hstable]
    exact ih c₁ s₁ cB hsub₁

/-- C8: reconciliation is deterministic (a pure function of the fund's
operations, the latest NAV and the resolved history) and idempotent — a
second replay with the same operations in the same order and the same latest
NAV, run against the caches the first replay produced, returns a
structurally equal Holding (and leaves the caches unchanged). -/
theorem computeHolding_idempotent :
    ∀ (fetch : String → ℕ → Option FundHistoryTableData) (code today : String)
      (ops : List FundOperation) (latestNav : Option ℚ) (caches : NavCaches),
      (computeHoldingFromOperations fetch code today ops latestNav
          ((computeHoldingFromOperations fetch code today ops latestNav caches).2)).1
        = (computeHoldingFromOperations fetch code today ops latestNav caches).1 := by
  intro fetch code today ops latestNav caches
  unfold computeHoldingFromOperations
  dsimp only
  rcases hfold : (List.insertionSort (fun a b => opLeb a b = true) ops).foldl
      (replayStep fetch code today latestNav)
      (caches, { shares := 0, cost := 0, firstBuy := "" }) with ⟨c', s'⟩
  have hstable := replayFold_stable fetch fetch code today latestNav
    (List.insertionSort (fun a b => opLeb a b = true) ops) caches
    { shares := 0, cost := 0, firstBuy := "" } c' (by
      intro k v hkv
      rw [hfold] at hkv
      exact hkv)
  rw [hfold] at hstable
  dsimp only
  rw [hstable]

/-- The codepoint lexicographic order is irreflexive. -/
theorem lexLtb_irrefl : ∀ x : List Char, lexLtb x x = false := by
  intro x
  induction x with
  | nil => rfl
  | cons c cs ih =>
    unfold lexLtb
    simp [ih]

/-- The codepoint lexicographic order is asymmetric. -/
theorem lexLtb_asymm : ∀ x y : List Char, lexLtb x y = true → lexLtb y x = false := by
  intro x
  induction x with
  | nil =>
    intro y h
    cases y with
    | nil => cases h
    | cons c cs => rfl
  | cons c cs ih =>
    intro y h
    cases y with
    | nil => cases h
    | cons b bs =>
      unfold lexLtb at h ⊢
      by_cases hcb : c.toNat < b.toNat
      · rw [if_neg (by omega), if_pos (by omega)]
      · by_cases hbc : b.toNat < c.toNat
        · rw [if_pos hbc] at *
          rw [if_neg hcb] at h
          cases h
        · rw [if_neg hcb, if_neg hbc] at h
          rw [if_neg hbc, if_neg hcb]
          exact ih bs h

/-- In a strictly date-ascending history, equal dates force equal entries. -/
theorem pairwise_date_inj :
    ∀ (l : List FundHistoryPoint),
      l.Pairwise (fun a b => dateLtb a.date b.date = true) →
      ∀ p ∈ l, ∀ q ∈ l, p.date = q.date → p = q := by
  intro l
  induction l with
  | nil =>
    intro _ p hp
    cases hp
  | cons a as ih =>
    intro hpw p hp q hq hdate
    have hpw' := List.pairwise_cons.mp hpw
    rcases List.mem_cons.mp hp with hpa | hpas
    · rcases List.mem_cons.mp hq with hqa | hqas
      · rw [hpa, hqa]
      · exfalso
        have hlt := hpw'.1 q hqas
        rw [← hpa, hdate] at hlt
        have := lexLtb_irrefl q.date.data
        rw [dateLtb] at hlt
        rw [hlt] at this
        cases this
    · rcases List.mem_cons.mp hq with hqa | hqas
      · exfalso
        have hlt := hpw'.1 p hpas
        rw [← hqa, ← hdate] at hlt
        have := lexLtb_irrefl p.date.data
        rw [dateLtb] at hlt
        rw [hlt] at this
        cases this
      · exact ih hpw'.2 p hpas q hqas hdate

/-- `find?` over a list every element of which satisfies the predicate is the
head. -/
theorem find?_eq_head?_of_all (p : FundHistoryPoint → Bool) :
    ∀ l : List FundHistoryPoint, (∀ x ∈ l, p x = true) → l.find? p = l.head? := by
  intro l hall
  cases l with
  | nil => rfl
  | cons a as => rw [List.find?_cons_of_pos _ (hall a (List.mem_cons_self a as))]; rfl

/-- The head surviving `dropWhile` fails the predicate. -/
theorem dropWhile_head_false (q : FundHistoryPoint → Bool) :
    ∀ (l : List FundHistoryPoint) (x : FundHistoryPoint) (rest : List FundHistoryPoint),
      l.dropWhile q = x :: rest → q x = false := by
  intro l
  induction l with
  | nil =>
    intro x rest h
    cases h
  | cons a as ih =>
    intro x rest h
    rw [List.dropWhile_cons] at h
    by_cases ha : q a = true
    · rw [if_pos ha] at h
      exact ih x rest h
    · rw [if_neg ha] at h
      cases h
      simpa using ha

/-- On an already-normalized, strictly ascending history the normalize /
filter / sort pipeline of `findNavInHistoryStrict` is the identity. -/
theorem history_pipeline_id (history : List FundHistoryPoint)
    (hnorm : ∀ p ∈ history, p.date ≠ "" ∧ normalizeHistoryDate p.date = p.date)
    (hpw : history.Pairwise (fun a b => dateLtb a.date b.date = true)) :
    List.insertionSort (fun a b => histLeb a b = true)
      ((history.map (fun i => { i with date := normalizeHistoryDate i.date })).filter
        (fun i => i.date ≠ "")) = history := by
  have hmap : history.map (fun i => { i with date := normalizeHistoryDate i.date })
      = history := by
    have hid : ∀ p ∈ history,
        ({ p with date := normalizeHistoryDate p.date } : FundHistoryPoint) = p := by
      intro p hp
      have h2 := (hnorm p hp).2
      cases p
      simp_all
    calc history.map (fun i => { i with date := normalizeHistoryDate i.date })
        = history.map id := List.map_congr_left hid
      _ = history := List.map_id history
  rw [hmap, List.filter_eq_self.mpr (fun p hp => by simpa using (hnorm p hp).1)]
  apply List.Sorted.insertionSort_eq
  refine hpw.imp ?_
  intro a b hab
  unfold histLeb dateLeb
  unfold dateLtb at hab ⊢
  rw [lexLtb_asymm _ _ hab]
  rfl

/-- When the history (strictly ascending) contains an exact match for `d`,
the entry right after the match is exactly the first entry with a strictly
later date. -/
theorem after_exact_eq_first_later (d : String) :
    ∀ (l : List FundHistoryPoint),
      l.Pairwise (fun a b => dateLtb a.date b.date = true) →
      ∀ (x : FundHistoryPoint) (rest : List FundHistoryPoint),
        l.dropWhile (fun i => i.date ≠ d) = x :: rest →
        rest.head?.map FundHistoryPoint.nav
          = (l.find? (fun p => dateLtb d p.date)).map FundHistoryPoint.nav := by
  intro l
  induction l with
  | nil =>
    intro _ x rest h
    cases h
  | cons a as ih =>
    intro hpw x rest h
    have hpw' := List.pairwise_cons.mp hpw
    rw [List.dropWhile_cons] at h
    by_cases ha : a.date = d
    · rw [if_neg (by simp [ha])] at h
      cases h
      have hfa : dateLtb d a.date = false := by
        rw [ha]
        exact lexLtb_irrefl d.data
      rw [List.find?_cons_of_neg _ (by simp [hfa])]
      rw [find?_eq_head?_of_all _ as ?_]
      intro b hb
      have := hpw'.1 b hb
      rw [ha] at this
      exact this
    · rw [if_pos (by simp [ha])] at h
      have hx := dropWhile_head_false _ as x rest h
      have hxd : x.date = d := by simpa using hx
      have hxmem : x ∈ as := by
        have hsub := List.dropWhile_sublist (l := as) (fun i => i.date ≠ d)
        exact hsub.subset (by rw [h]; exact List.mem_cons_self x rest)
      have halt : dateLtb a.date d = true := by
        have hlt := hpw'.1 x hxmem
        rw [hxd] at hlt
        exact hlt
      have hda : dateLtb d a.date = false := by
        unfold dateLtb at halt ⊢
        exact lexLtb_asymm _ _ halt
      rw [List.find?_cons_of_neg _ (by simp [hda])]
      exact ih hpw'.2 x rest h

/-- C2: against a deduplicated, normalized, strictly date-ascending history,
`before` resolution returns the NAV whose date equals the order date exactly
(null when no entry has that date, never an adjacent date), and `after`
resolution returns the first NAV strictly after the order date (null when
none is later); in particular with history dates 2024-05-09 and 2024-05-13,
order date 2024-05-10 resolves to null for `before` and to the NAV of
2024-05-13 for `after`. -/
theorem findNavInHistoryStrict_spec :
    (∀ (d : String) (history : List FundHistoryPoint),
      d ≠ "" → normalizeHistoryDate d = d →
      (∀ p ∈ history, p.date ≠ "" ∧ normalizeHistoryDate p.date = p.date) →
      history.Pairwise (fun a b => dateLtb a.date b.date = true) →
      (∀ v : ℚ,
        findNavInHistoryStrict d TradeTiming.before history = some v ↔
          ∃ p ∈ history, p.date = d ∧ p.nav = v)
      ∧ findNavInHistoryStrict d TradeTiming.after history
        = (history.find? (fun p => dateLtb d p.date)).map FundHistoryPoint.nav)
    ∧ findNavInHistoryStrict "2024-05-10" TradeTiming.before c2Hist = none
    ∧ findNavInHistoryStrict "2024-05-10" TradeTiming.after c2Hist = some (6/5) := by
  refine ⟨?_, by with_unfolding_all decide, by with_unfolding_all decide⟩
  intro d history hd hnd hnorm hpw
  by_cases hne : history = []
  · subst hne
    constructor
    · intro v
      simp [findNavInHistoryStrict]
    · simp [findNavInHistoryStrict]
  · have hcond : ¬(d = "" ∨ history = []) := by
      rintro (h | h)
      · exact hd h
      · exact hne h
    have hpipe := history_pipeline_id history hnorm hpw
    constructor
    · intro v
      unfold findNavInHistoryStrict
      rw [if_neg hcond]
      dsimp only
      rw [hnd, hpipe, if_neg hne]
      constructor
      · intro hsome
        rcases Option.map_eq_some'.mp hsome with ⟨p, hfp, hnav⟩
        have hmem := List.mem_of_find?_eq_some hfp
        have hdate : p.date = d := by simpa using List.find?_some hfp
        exact ⟨p, hmem, hdate, hnav⟩
      · rintro ⟨p, hmem, hdate, hnav⟩
        have hissome : (history.find? (fun i => i.date = d)).isSome := by
          rw [List.find?_isSome]
          exact ⟨p, hmem, by simp [hdate]⟩
        rcases Option.isSome_iff_exists.mp hissome with ⟨q, hq⟩
        have hqmem := List.mem_of_find?_eq_some hq
        have hqdate : q.date = d := by simpa using List.find?_some hq
        have hqp : q = p :=
          pairwise_date_inj history hpw q hqmem p hmem (by rw [hqdate, hdate])
        rw [hq]
        simp [hqp, hnav]
    · unfold findNavInHistoryStrict
      rw [if_neg hcond]
      dsimp only
      rw [hnd, hpipe, if_neg hne]
      cases hdw : history.dropWhile (fun i => i.date ≠ d) with
      | nil => rfl
      | cons x rest =>
        dsimp only
        exact after_exact_eq_first_later d history hpw x rest hdw

/-- C2 witness: the general clauses applied at the concrete two-day history
and order date 2024-05-10. -/
theorem findNavInHistoryStrict_spec_witness :
    (("2024-05-10" : String) ≠ ""
      ∧ normalizeHistoryDate "2024-05-10" = "2024-05-10"
      ∧ (∀ p ∈ c2Hist, p.date ≠ "" ∧ normalizeHistoryDate p.date = p.date)
      ∧ c2Hist.Pairwise (fun a b => dateLtb a.date b.date = true))
    ∧ findNavInHistoryStrict "2024-05-10" TradeTiming.after c2Hist
      = (c2Hist.find? (fun p => dateLtb "2024-05-10" p.date)).map FundHistoryPoint.nav :=
  ⟨⟨by decide, by decide, by decide, by decide⟩,
    (findNavInHistoryStrict_spec.1 "2024-05-10" c2Hist (by decide) (by decide)
      (by decide) (by decide)).2⟩
